import Mathlib

/-!
# Habit-Monsters (`src/App.tsx`) — a shallow embedding and verification

The repository is a single-file React habit tracker.  Its domain logic is a
handful of pure functions over lists of ISO date strings (`YYYY-MM-DD`) plus
an array of habit records.  We embed that logic here.

Modelling conventions:

* Calendar dates.  The code stores dates as zero-padded `YYYY-MM-DD` strings;
  for such strings JS lexicographic comparison, ISO equality and the
  `dateAdd` day arithmetic coincide with the order, equality and successor
  arithmetic of the day number.  We therefore embed a date as its day number
  `ℤ` and `dateAdd d k` as `d + k`.  "Today" (`todayISO()` in the source,
  the ambient current date) becomes an explicit parameter `today : ℤ`.
* `Set`/`Array` operations: `new Set(arr)` membership is list membership;
  `Array.from(new Set(arr))` is first-occurrence deduplication (`uniq`
  below); `.sort()` on ISO date strings is sorting by `≤` on day numbers
  (modelled by `List.insertionSort`, a stable sort, like JS `.sort`).
* `localStorage` and `JSON.parse` are JS runtime externals; they are
  modelled at the value level for the `load` function (see `JValue` below).
-/

/-- `dateAdd(isoDate, days)` from `App.tsx`: shifts a calendar date by a
number of days.  On day numbers this is integer addition. -/
def dateAdd (d : ℤ) (days : ℤ) : ℤ := d + days

/-- `uniq` from `App.tsx`: `Array.from(new Set(arr))`, i.e. deduplication
keeping the first occurrence of each element, in order.  `seen` accumulates
the elements already emitted (the contents of the JS `Set` so far). -/
def uniqAux : List ℤ → List ℤ → List ℤ
  | [], _ => []
  | a :: l, seen => if a ∈ seen then uniqAux l seen else a :: uniqAux l (a :: seen)

def uniq (l : List ℤ) : List ℤ := uniqAux l []

/-- The body of the `while (set.has(cursor))` loop of `computeStreak`,
run with explicit fuel: counts how many consecutive days, walking backward
from `c`, lie in `s` — stopping early if the fuel runs out.  `computeStreak`
supplies enough fuel (`s.card + 1`) for the cutoff never to fire
(`streakLoop_eq_firstGap` below proves this). -/
def streakLoop (s : Finset ℤ) : ℕ → ℤ → ℕ
  | 0, _ => 0
  | fuel + 1, c => if c ∈ s then streakLoop s fuel (dateAdd c (-1)) + 1 else 0

/-- `computeStreak` from `App.tsx`:

```
if (!completions.length) return 0;
const set = new Set(completions);
let streak = 0;
let cursor = set.has(todayISO()) ? todayISO() : dateAdd(todayISO(), -1);
while (set.has(cursor)) { streak += 1; cursor = dateAdd(cursor, -1); }
return streak;
```
-/
def computeStreak (completions : List ℤ) (today : ℤ) : ℕ :=
  if completions.isEmpty then 0
  else
    streakLoop completions.toFinset (completions.toFinset.card + 1)
      (if today ∈ completions.toFinset then today else dateAdd today (-1))

/-- `totalCompletions` from `App.tsx`: `completions.length`. -/
def totalCompletions (completions : List ℤ) : ℕ := completions.length

/-- `HabitCategory` from `App.tsx` (the four `CATEGORIES`). -/
inductive HabitCategory where
  | Health | Productivity | Creativity | Personal
deriving DecidableEq, Repr

/-- The `Habit` record type from `App.tsx`.  `completions` is the list of
completion dates as day numbers; `createdAt` stays an opaque string. -/
structure Habit where
  id : String
  name : String
  category : HabitCategory
  createdAt : String
  completions : List ℤ
deriving DecidableEq, Repr

/-- `THRESHOLDS` from `App.tsx`: `{ baby: 4, final: 11 }`. -/
def THRESHOLDS_baby : ℕ := 4

def THRESHOLDS_final : ℕ := 11

/-- `EvolutionStage` from `App.tsx`. -/
inductive EvolutionStage where
  | Egg | Baby | Final
deriving DecidableEq, Repr

/-- `getStage` from `App.tsx`. -/
def getStage (completions : ℕ) : EvolutionStage :=
  if completions ≥ THRESHOLDS_final then .Final
  else if completions ≥ THRESHOLDS_baby then .Baby
  else .Egg

/-- `stageLabel` from `App.tsx`: display names for the stages. -/
def stageLabel (completions : ℕ) : String :=
  match getStage completions with
  | .Egg => "Egg"
  | .Baby => "Hatchling"
  | .Final => "Evolved"

/-- The per-habit body of `toggleToday` from `App.tsx` (the lambda passed
to `prev.map`), with the ambient `iso = todayISO()` as parameter `today`
and the source's `done` constant inlined:

```
(h) => {
  if (h.id !== id) return h;
  const done = h.completions.includes(iso);
  return { ...h, completions: done
      ? h.completions.filter((d) => d !== iso)
      : uniq([...h.completions, iso]).sort() };
}
```
-/
def toggleOne (id : String) (today : ℤ) (h : Habit) : Habit :=
  if h.id ≠ id then h
  else
    { h with
      completions :=
        if today ∈ h.completions then h.completions.filter (fun d => d ≠ today)
        else List.insertionSort (· ≤ ·) (uniq (h.completions ++ [today])) }

/-- `toggleToday` from `App.tsx`: the `setHabits` updater
`prev.map((h) => ...)` applied to the current collection. -/
def toggleToday (id : String) (today : ℤ) (habits : List Habit) : List Habit :=
  habits.map (toggleOne id today)

/-- `deleteHabit` from `App.tsx`: `prev.filter((h) => h.id !== id)`. -/
def deleteHabit (id : String) (habits : List Habit) : List Habit :=
  habits.filter fun h => h.id ≠ id

/-- `addHabit` from `App.tsx`, with the ambient fresh id
(`Math.random().toString(36).substring(2, 9)`) and current instant
(`new Date().toISOString()`) as parameters.  Note: the source line
`id: Math.random().toString(36).substring(2, 9),,` (App.tsx:264) contains a
stray second comma, which is a syntax error in a JS object literal; the
embedding renders the evident intent of that line. -/
def addHabit (name : String) (category : HabitCategory) (newId createdAt : String)
    (habits : List Habit) : List Habit :=
  { id := newId, name := name, category := category, createdAt := createdAt,
    completions := [] } :: habits

/-- JS `String.prototype.trim` (a runtime builtin called by the source):
removes leading and trailing whitespace.  Modelled over the character list;
`Char.isWhitespace` covers the whitespace characters occurring here. -/
def jsTrim (s : String) : String :=
  ⟨((s.data.dropWhile Char.isWhitespace).reverse.dropWhile Char.isWhitespace).reverse⟩

/-- The `HabitForm` submit handler from `App.tsx` composed with `addHabit`
(this composition is the spec's `addHabit(name, category)` operation;
JS `!name.trim()` is true exactly when the trimmed string is empty):

```
if (!name.trim()) return;
onAdd({ name: name.trim(), category });
```
-/
def submitHabit (name : String) (category : HabitCategory) (newId createdAt : String)
    (habits : List Habit) : List Habit :=
  if jsTrim name = "" then habits
  else addHabit (jsTrim name) category newId createdAt habits

/-! ## The storage `load` function

`load` reads `localStorage.getItem(STORAGE_KEY)` and runs `JSON.parse` on
it inside `try { ... } catch { return []; }`; the parsed value is returned
as `Habit[]` by a bare type cast, without validation.  `localStorage` and
`JSON.parse` are runtime externals, so the storage slot is modelled at the
value level: `none` is an absent key (`getItem` returned `null`);
`some none` is present text on which `JSON.parse` throws; `some (some v)`
is present text that parses to the JSON value `v`. -/

/-- JSON values (numbers restricted to integers, which suffices here). -/
inductive JValue where
  | jnull
  | jbool (b : Bool)
  | jnum (n : ℤ)
  | jstr (s : String)
  | jarr (elems : List JValue)
  | jobj (fields : List (String × JValue))

/-- `load` from `App.tsx`:

```
try {
  const raw = localStorage.getItem(STORAGE_KEY);
  return raw ? (JSON.parse(raw) as Habit[]) : [];
} catch { return []; }
```

The result is the raw parsed value: the `as Habit[]` cast performs no
checking, so a successfully parsed value of any shape is returned as-is. -/
def load (slot : Option (Option JValue)) : JValue :=
  match slot with
  | none => .jarr []
  | some none => .jarr []
  | some (some v) => v

/-- Modelled from the spec (§6 persisted state layout): what it means for a
JSON value to be "an array of Habit records" — each element an object whose
`id`, `name`, `createdAt` fields are strings, whose `category` is one of the
four enumerated strings, and whose `completions` is an array of strings. -/
def getField (fields : List (String × JValue)) (k : String) : Option JValue :=
  (fields.find? fun p => p.1 = k).map Prod.snd

def isCategoryString (s : String) : Bool :=
  s = "Health" || s = "Productivity" || s = "Creativity" || s = "Personal"

def isStringArray : JValue → Bool
  | .jarr es => es.all fun e => match e with | .jstr _ => true | _ => false
  | _ => false

def isStringField (fields : List (String × JValue)) (k : String) : Bool :=
  match getField fields k with
  | some (.jstr _) => true
  | _ => false

def isHabitObj : JValue → Bool
  | .jobj fields =>
    isStringField fields "id" && isStringField fields "name" &&
    (match getField fields "category" with
     | some (.jstr s) => isCategoryString s
     | _ => false) &&
    isStringField fields "createdAt" &&
    (match getField fields "completions" with
     | some a => isStringArray a
     | _ => false)
  | _ => false

def isHabitArray : JValue → Bool
  | .jarr elems => elems.all isHabitObj
  | _ => false

/-! ## The specification's streak algorithm

Spec §4.2: "Let `today` be the current local calendar date.  If
`completions` is empty, result is 0.  Otherwise set `cursor := today` if
`today ∈ completions`, else `cursor := today - 1 day`.  While
`cursor ∈ completions`: increment the count, then `cursor := cursor - 1
day`.  Return the count."  The count of that while loop is the least `n`
such that `cursor - n ∉ completions` — the position of the first gap. -/

theorem exists_gap_le (s : Finset ℤ) (c : ℤ) :
    ∃ n : ℕ, n ≤ s.card ∧ c - n ∉ s := by
  by_contra h
  push_neg at h
  have hsub : (Finset.range (s.card + 1)).image (fun n : ℕ => c - n) ⊆ s := by
    intro x hx
    simp only [Finset.mem_image, Finset.mem_range] at hx
    obtain ⟨n, hn, rfl⟩ := hx
    exact h n (Nat.lt_succ_iff.mp hn)
  have hinj : Function.Injective (fun n : ℕ => c - (n : ℤ)) := by
    intro a b hab
    simpa using hab
  have hcard := Finset.card_le_card hsub
  rw [Finset.card_image_of_injective _ hinj, Finset.card_range] at hcard
  omega

theorem exists_gap (s : Finset ℤ) (c : ℤ) : ∃ n : ℕ, c - n ∉ s := by
  obtain ⟨n, _, hn⟩ := exists_gap_le s c
  exact ⟨n, hn⟩

/-- The first gap walking back from `c`: the least `n ≥ 0` with
`c - n ∉ s`.  This is the count returned by the spec's while loop started
at cursor `c`. -/
def firstGap (s : Finset ℤ) (c : ℤ) : ℕ := Nat.find (exists_gap s c)

/-- The spec's streak algorithm, verbatim: 0 on an empty list, otherwise
the while-loop count from the chosen start cursor. -/
def specStreak (completions : List ℤ) (today : ℤ) : ℕ :=
  if completions = [] then 0
  else
    firstGap completions.toFinset
      (if today ∈ completions then today else today - 1)

theorem firstGap_of_not_mem {s : Finset ℤ} {c : ℤ} (h : c ∉ s) :
    firstGap s c = 0 := by
  simpa [firstGap] using h

theorem firstGap_of_mem {s : Finset ℤ} {c : ℤ} (h : c ∈ s) :
    firstGap s c = firstGap s (c - 1) + 1 := by
  rw [firstGap, Nat.find_eq_iff]
  refine ⟨?_, ?_⟩
  · have he : c - ((firstGap s (c - 1) + 1 : ℕ) : ℤ)
        = (c - 1) - (firstGap s (c - 1) : ℤ) := by push_cast; ring
    rw [he]
    exact Nat.find_spec (exists_gap s (c - 1))
  · intro n hn
    simp only [not_not]
    match n with
    | 0 => simpa using h
    | m + 1 =>
      have hm : m < firstGap s (c - 1) := by omega
      have hmem := Nat.find_min (exists_gap s (c - 1)) hm
      simp only [not_not] at hmem
      have he : c - ((m + 1 : ℕ) : ℤ) = (c - 1) - (m : ℤ) := by push_cast; ring
      rw [he]
      exact hmem

theorem firstGap_le_card (s : Finset ℤ) (c : ℤ) : firstGap s c ≤ s.card := by
  obtain ⟨n, hle, hn⟩ := exists_gap_le s c
  exact le_trans (Nat.find_min' _ hn) hle

theorem streakLoop_eq_min (s : Finset ℤ) :
    ∀ (fuel : ℕ) (c : ℤ), streakLoop s fuel c = min (firstGap s c) fuel := by
  intro fuel
  induction fuel with
  | zero => intro c; simp [streakLoop]
  | succ f ih =>
    intro c
    by_cases hc : c ∈ s
    · rw [streakLoop, if_pos hc, firstGap_of_mem hc, ih]
      show min (firstGap s (dateAdd c (-1))) f + 1 = _
      have : dateAdd c (-1) = c - 1 := by unfold dateAdd; ring
      rw [this]
      omega
    · rw [streakLoop, if_neg hc, firstGap_of_not_mem hc]
      simp

/-- Refinement of the source streak computation against the spec's
algorithm: `computeStreak` and `specStreak` agree on every input. -/
theorem computeStreak_eq_specStreak (l : List ℤ) (t : ℤ) :
    computeStreak l t = specStreak l t := by
  by_cases hl : l = []
  · subst hl; rfl
  · unfold computeStreak specStreak
    rw [if_neg (by simp [hl]), if_neg hl]
    have hd : dateAdd t (-1) = t - 1 := by unfold dateAdd; ring
    simp only [List.mem_toFinset, hd]
    rw [streakLoop_eq_min]
    have := firstGap_le_card l.toFinset (if t ∈ l then t else t - 1)
    omega

/-- C1: `computeStreak` follows the spec's streak algorithm exactly — 0 on
an empty list, and otherwise the backward walk from today (or from
yesterday when today is not completed) counting consecutive completed
days; in particular `{today}` yields 1 and `{yesterday,
day-before-yesterday}` with today absent yields 2. -/
theorem computeStreak_follows_spec :
    (∀ (completions : List ℤ) (today : ℤ),
        computeStreak completions today = specStreak completions today) ∧
    (∀ today : ℤ, computeStreak [today] today = 1) ∧
    (∀ today : ℤ, computeStreak [today - 1, today - 2] today = 2) := by
  refine ⟨computeStreak_eq_specStreak, fun t => ?_, fun t => ?_⟩
  · rw [computeStreak_eq_specStreak]
    unfold specStreak
    rw [if_neg (by simp), if_pos (by simp)]
    rw [firstGap_of_mem (by simp)]
    rw [firstGap_of_not_mem (by intro hmem; simp at hmem)]
  · rw [computeStreak_eq_specStreak]
    unfold specStreak
    rw [if_neg (by simp), if_neg (by intro hmem; simp at hmem; omega)]
    rw [firstGap_of_mem (by simp)]
    rw [firstGap_of_mem (by simp only [List.toFinset_cons, List.toFinset_nil,
      Finset.mem_insert, Finset.mem_singleton]; omega)]
    rw [firstGap_of_not_mem (by intro hmem; simp at hmem; omega)]

/-- C2: the evolution stage (via its display label) is `Egg` exactly below
4 total completions, `Hatchling` exactly from 4 to 10, and `Evolved`
exactly from 11 on; in particular 3 ↦ Egg, 4 ↦ Hatchling, 10 ↦ Hatchling,
11 ↦ Evolved. -/
theorem evolutionStage_thresholds :
    (∀ total : ℕ,
        (stageLabel total = "Egg" ↔ total < 4) ∧
        (stageLabel total = "Hatchling" ↔ 4 ≤ total ∧ total < 11) ∧
        (stageLabel total = "Evolved" ↔ 11 ≤ total)) ∧
    stageLabel 3 = "Egg" ∧ stageLabel 4 = "Hatchling" ∧
    stageLabel 10 = "Hatchling" ∧ stageLabel 11 = "Evolved" := by
  refine ⟨fun total => ?_, by decide, by decide, by decide, by decide⟩
  unfold stageLabel getStage THRESHOLDS_final THRESHOLDS_baby
  split_ifs with h1 h2 <;>
    refine ⟨⟨fun hlab => ?_, fun hcnt => ?_⟩, ⟨fun hlab => ?_, fun hcnt => ?_⟩,
      ⟨fun hlab => ?_, fun hcnt => ?_⟩⟩ <;>
    first
      | rfl
      | omega
      | exact absurd hlab (by decide)

/-- C6: the streak never exceeds the total number of completions of the
same list. -/
theorem computeStreak_le_totalCompletions (l : List ℤ) (t : ℤ) :
    computeStreak l t ≤ totalCompletions l := by
  by_cases h : l.isEmpty = true
  · unfold computeStreak
    rw [if_pos h]
    exact Nat.zero_le _
  · unfold computeStreak totalCompletions
    rw [if_neg h, streakLoop_eq_min]
    have h1 := firstGap_le_card l.toFinset
      (if t ∈ l.toFinset then t else dateAdd t (-1))
    have h2 := l.toFinset_card_le
    omega

/-- C10: the streak depends only on the set of dates in the input list —
two lists with the same `toFinset` (same dates, regardless of order and
duplicates) give the same streak. -/
theorem computeStreak_set_extensional (l₁ l₂ : List ℤ) (today : ℤ)
    (h : l₁.toFinset = l₂.toFinset) :
    computeStreak l₁ today = computeStreak l₂ today := by
  by_cases h1 : l₁ = []
  · subst h1
    have h2 : l₂ = [] := by simpa using h.symm
    subst h2; rfl
  · have h2 : l₂ ≠ [] := by
      intro h2; subst h2; apply h1; simpa using h
    unfold computeStreak
    have e1 : l₁.isEmpty = false := by simp [h1]
    have e2 : l₂.isEmpty = false := by simp [h2]
    rw [h, e1, e2]

/-- Witness for C10 at a concrete input: `[0, 1, 1]` and `[1, 0]` carry the
same date set and the same streak. -/
theorem computeStreak_set_extensional_witness :
    List.toFinset [(0 : ℤ), 1, 1] = List.toFinset [1, 0] ∧
    computeStreak [(0 : ℤ), 1, 1] 1 = computeStreak [1, 0] 1 :=
  ⟨by decide, computeStreak_set_extensional _ _ _ (by decide)⟩

/-! ## Properties of `uniq` and `toggleOne` -/

theorem mem_uniqAux (x : ℤ) : ∀ (l seen : List ℤ),
    x ∈ uniqAux l seen ↔ x ∈ l ∧ x ∉ seen := by
  intro l
  induction l with
  | nil => intro seen; simp [uniqAux]
  | cons a l ih =>
    intro seen
    by_cases ha : a ∈ seen
    · rw [uniqAux, if_pos ha, ih]
      simp only [List.mem_cons]
      constructor
      · rintro ⟨hx, hs⟩
        exact ⟨Or.inr hx, hs⟩
      · rintro ⟨hx | hx, hs⟩
        · exact absurd (hx ▸ ha) hs
        · exact ⟨hx, hs⟩
    · rw [uniqAux, if_neg ha]
      simp only [List.mem_cons, ih]
      constructor
      · rintro (rfl | ⟨hx, hs⟩)
        · exact ⟨Or.inl rfl, ha⟩
        · exact ⟨Or.inr hx, fun hmem => hs (Or.inr hmem)⟩
      · rintro ⟨rfl | hx, hs⟩
        · exact Or.inl rfl
        · by_cases hxa : x = a
          · exact Or.inl hxa
          · exact Or.inr ⟨hx, fun hmem => hmem.elim hxa hs⟩

theorem nodup_uniqAux : ∀ (l seen : List ℤ), (uniqAux l seen).Nodup := by
  intro l
  induction l with
  | nil => intro seen; simp [uniqAux]
  | cons a l ih =>
    intro seen
    by_cases ha : a ∈ seen
    · rw [uniqAux, if_pos ha]
      exact ih seen
    · rw [uniqAux, if_neg ha, List.nodup_cons]
      refine ⟨fun hmem => ?_, ih _⟩
      exact ((mem_uniqAux a l (a :: seen)).mp hmem).2 (List.mem_cons_self a seen)

theorem mem_uniq (x : ℤ) (l : List ℤ) : x ∈ uniq l ↔ x ∈ l := by
  rw [uniq, mem_uniqAux]
  simp

theorem nodup_uniq (l : List ℤ) : (uniq l).Nodup := nodup_uniqAux l []

theorem toggleOne_id_ne {id : String} {today : ℤ} {h : Habit} (hne : h.id ≠ id) :
    toggleOne id today h = h := by
  unfold toggleOne
  rw [if_pos hne]

theorem toggleOne_fields (id : String) (today : ℤ) (h : Habit) :
    (toggleOne id today h).id = h.id ∧ (toggleOne id today h).name = h.name ∧
    (toggleOne id today h).category = h.category ∧
    (toggleOne id today h).createdAt = h.createdAt := by
  unfold toggleOne
  split_ifs <;> simp

theorem toggleOne_completions_of_mem {id : String} {today : ℤ} {h : Habit}
    (hid : h.id = id) (hmem : today ∈ h.completions) :
    (toggleOne id today h).completions
      = h.completions.filter (fun d => d ≠ today) := by
  unfold toggleOne
  rw [if_neg (not_not_intro hid), if_pos hmem]

theorem toggleOne_completions_of_not_mem {id : String} {today : ℤ} {h : Habit}
    (hid : h.id = id) (hmem : today ∉ h.completions) :
    (toggleOne id today h).completions
      = List.insertionSort (· ≤ ·) (uniq (h.completions ++ [today])) := by
  unfold toggleOne
  rw [if_neg (not_not_intro hid), if_neg hmem]

/-- C3 (amended): toggling today's completion twice for any identifier
leaves every habit with the same `id`, `name`, `category` and `createdAt`,
and restores each habit's completion set — set equality of `completions`;
exact list equality can fail because the insertion path re-sorts and
deduplicates (see the counterexample). -/
theorem toggleToday_twice_restores (habits : List Habit) (id : String) (today : ℤ) :
    List.Forall₂
      (fun h h' => h'.id = h.id ∧ h'.name = h.name ∧ h'.category = h.category ∧
        h'.createdAt = h.createdAt ∧
        h'.completions.toFinset = h.completions.toFinset)
      habits (toggleToday id today (toggleToday id today habits)) := by
  unfold toggleToday
  rw [List.map_map, List.forall₂_map_right_iff, List.forall₂_same]
  intro h hmem
  simp only [Function.comp_apply]
  by_cases hid : h.id = id
  · obtain ⟨f1, f2, f3, f4⟩ := toggleOne_fields id today h
    obtain ⟨g1, g2, g3, g4⟩ := toggleOne_fields id today (toggleOne id today h)
    have hid1 : (toggleOne id today h).id = id := f1.trans hid
    refine ⟨g1.trans f1, g2.trans f2, g3.trans f3, g4.trans f4, ?_⟩
    by_cases hnow : today ∈ h.completions
    · have e1 := toggleOne_completions_of_mem hid hnow
      have hnot2 : today ∉ (toggleOne id today h).completions := by
        rw [e1]
        simp
      rw [toggleOne_completions_of_not_mem hid1 hnot2, e1]
      ext x
      simp only [List.mem_toFinset, List.mem_insertionSort,
        mem_uniq, List.mem_append, List.mem_filter, List.mem_singleton,
        decide_eq_true_eq]
      constructor
      · rintro (⟨hx, _⟩ | rfl)
        · exact hx
        · exact hnow
      · intro hx
        by_cases hxt : x = today
        · exact Or.inr hxt
        · exact Or.inl ⟨hx, hxt⟩
    · have e1 := toggleOne_completions_of_not_mem hid hnow
      have hmem2 : today ∈ (toggleOne id today h).completions := by
        rw [e1, List.mem_insertionSort, mem_uniq]
        simp
      rw [toggleOne_completions_of_mem hid1 hmem2, e1]
      ext x
      simp only [List.mem_toFinset, List.mem_filter,
        List.mem_insertionSort, mem_uniq, List.mem_append,
        List.mem_singleton, decide_eq_true_eq]
      constructor
      · rintro ⟨hx | rfl, hxt⟩
        · exact hx
        · exact absurd rfl hxt
      · intro hx
        refine ⟨Or.inl hx, ?_⟩
        rintro rfl
        exact hnow hx
  · rw [toggleOne_id_ne hid, toggleOne_id_ne hid]
    exact ⟨rfl, rfl, rfl, rfl, rfl⟩

/-- Counterexample to C3 as literally stated: with a habit whose
completions list is `[1, 0]` (today's date `1` present, stored unsorted),
`toggle(toggle(S, today), today)` yields completions `[0, 1]` — the same
set, but not the original collection. -/
theorem toggleToday_twice_not_identity :
    toggleToday "a" 1 (toggleToday "a" 1
        [{ id := "a", name := "n", category := .Health, createdAt := "t",
           completions := [1, 0] }])
      ≠ [{ id := "a", name := "n", category := .Health, createdAt := "t",
           completions := [1, 0] }] := by
  decide

/-- C8: toggling or deleting with an identifier that matches no habit
leaves the collection unchanged. -/
theorem toggle_delete_nonexistent_noop (habits : List Habit) (id : String)
    (today : ℤ) (h : ∀ hb ∈ habits, hb.id ≠ id) :
    toggleToday id today habits = habits ∧ deleteHabit id habits = habits := by
  constructor
  · unfold toggleToday
    exact (List.map_congr_left fun hb hm => toggleOne_id_ne (h hb hm)).trans
      (List.map_id habits)
  · unfold deleteHabit
    refine List.filter_eq_self.mpr fun hb hm => ?_
    simpa using h hb hm

/-- Witness for C8 at a concrete input: a one-habit collection with id
`"a"` is untouched by toggling or deleting id `"z"`. -/
theorem toggle_delete_nonexistent_noop_witness :
    (∀ hb ∈ ([{ id := "a", name := "n", category := .Health, createdAt := "t", completions := [(0 : ℤ)] }] : List Habit), hb.id ≠ "z") ∧
    (toggleToday "z" 0 [{ id := "a", name := "n", category := .Health, createdAt := "t", completions := [(0 : ℤ)] }]
      = [{ id := "a", name := "n", category := .Health, createdAt := "t", completions := [(0 : ℤ)] }] ∧
     deleteHabit "z" [{ id := "a", name := "n", category := .Health, createdAt := "t", completions := [(0 : ℤ)] }]
      = [{ id := "a", name := "n", category := .Health, createdAt := "t", completions := [(0 : ℤ)] }]) :=
  ⟨by decide, toggle_delete_nonexistent_noop _ _ _ (by decide)⟩

/-- C9: after toggling, each habit keeps its `id`, `name`, `category`
and `createdAt`; for the matched habit the insertion path (today absent)
yields a duplicate-free, ascending-sorted completions list, and the
removal path (today present) yields a sublist of the original containing
exactly the original dates other than today. -/
theorem toggleToday_completion_invariants (habits : List Habit) (id : String)
    (today : ℤ) :
    List.Forall₂
      (fun h h' =>
        h'.id = h.id ∧ h'.name = h.name ∧ h'.category = h.category ∧
        h'.createdAt = h.createdAt ∧
        (h.id = id → today ∉ h.completions →
          h'.completions.Nodup ∧ h'.completions.Sorted (· ≤ ·)) ∧
        (h.id = id → today ∈ h.completions →
          List.Sublist h'.completions h.completions ∧
            ∀ d, d ∈ h'.completions ↔ d ∈ h.completions ∧ d ≠ today))
      habits (toggleToday id today habits) := by
  unfold toggleToday
  rw [List.forall₂_map_right_iff, List.forall₂_same]
  intro h hmem
  obtain ⟨f1, f2, f3, f4⟩ := toggleOne_fields id today h
  refine ⟨f1, f2, f3, f4, fun hid hnot => ?_, fun hid hmem2 => ?_⟩
  · rw [toggleOne_completions_of_not_mem hid hnot]
    constructor
    · exact ((List.perm_insertionSort _ _).nodup_iff).mpr (nodup_uniq _)
    · exact List.sorted_insertionSort _ _
  · rw [toggleOne_completions_of_mem hid hmem2]
    refine ⟨List.filter_sublist _, fun d => ?_⟩
    simp [List.mem_filter]

/-- C4: submitting a habit whose name trims to the empty string is a
no-op — no record is created and the collection is returned unchanged. -/
theorem submitHabit_blank_noop (name : String) (category : HabitCategory)
    (newId createdAt : String) (habits : List Habit) (h : jsTrim name = "") :
    submitHabit name category newId createdAt habits = habits := by
  unfold submitHabit
  rw [if_pos h]

/-- Witness for C4 at a concrete input: an all-whitespace name leaves the
empty collection empty. -/
theorem submitHabit_blank_noop_witness :
    jsTrim "   " = "" ∧ submitHabit "   " .Health "x" "t" [] = [] :=
  ⟨by decide, submitHabit_blank_noop _ _ _ _ _ (by decide)⟩

/-- C7 (the creation semantics the source evidently intends; the source
itself cannot run — see the syntax-error note on `addHabit`): submitting a
name with non-empty trim prepends a record carrying the trimmed name, the
fresh id, the creation instant and an empty completions list, leaving all
existing habits unchanged and in order. -/
theorem submitHabit_valid_prepends (name : String) (category : HabitCategory)
    (newId createdAt : String) (habits : List Habit) (h : jsTrim name ≠ "") :
    submitHabit name category newId createdAt habits
      = { id := newId, name := jsTrim name, category := category,
          createdAt := createdAt, completions := [] } :: habits := by
  unfold submitHabit addHabit
  rw [if_neg h]

/-- Witness for C7 at a concrete input: creating `"  Read  "` stores the
name `"Read"` at the front. -/
theorem submitHabit_valid_prepends_witness :
    jsTrim "  Read  " ≠ "" ∧
    submitHabit "  Read  " .Health "x" "t" []
      = [{ id := "x", name := "Read", category := .Health, createdAt := "t",
           completions := [] }] :=
  ⟨by decide,
    (submitHabit_valid_prepends "  Read  " .Health "x" "t" [] (by decide)).trans
      (by decide)⟩

/-- Counterexample to C5 as stated: a stored payload that is valid JSON
but not an array of Habit records (here the number `42`) is returned
as-is by `load` — not replaced by the empty sequence. -/
theorem load_wrong_shape_not_empty :
    load (some (some (.jnum 42))) = .jnum 42 ∧
    isHabitArray (load (some (some (.jnum 42)))) = false ∧
    load (some (some (.jnum 42))) ≠ .jarr [] := by
  refine ⟨rfl, rfl, fun h => ?_⟩
  exact JValue.noConfusion h

/-- C5 (amended): `load` fails soft — it is a total function and returns
the empty array exactly when the storage slot is absent, when the stored
text is not syntactically valid JSON, or when the payload happens to be
the empty array itself; any other successfully parsed payload is returned
unvalidated, whatever its shape. -/
theorem load_fails_soft (slot : Option (Option JValue)) :
    load slot = .jarr [] ↔
      slot = none ∨ slot = some none ∨ slot = some (some (.jarr [])) := by
  match slot with
  | none => simp [load]
  | some none => simp [load]
  | some (some v) =>
    simp only [load]
    constructor
    · intro h
      exact Or.inr (Or.inr (by rw [h]))
    · rintro (h | h | h)
      · simp at h
      · simp at h
      · simp only [Option.some.injEq] at h
        rw [h]
